import Mathlib

/-!
Verification of the pdfqanda retrieval pipeline against its specification.

Shallow embedding conventions:
* Python `str` values are modelled as Lean `String` / `List Char`; helper
  functions mirror the Python string methods used by the source.
* Python `float` values are modelled as exact rationals (`ℚ`); `math.sqrt`
  and `numpy.linalg.norm` are modelled by `sqrtQ`, which is exact on
  perfect squares (every concrete input used below keeps norms exact).
* Python `dict.get`-with-falsy-default idioms (`row.get(k) or d`) are
  modelled by `pyOrInt` / `pyOrStr`.
* Stateful code (the numpy vector-index backend, the embedding cache) is
  modelled by explicit state passing; a raised exception is an `Option
  String` error component returned together with the state left behind.
-/

namespace Pdfqanda

/-! ### Python string primitives -/

/-- Model of Python `str.strip()` on a character list. -/
def pyStrip (l : List Char) : List Char :=
  ((l.dropWhile Char.isWhitespace).reverse.dropWhile Char.isWhitespace).reverse

/-- Characters matched by the Python regex class `[A-Za-z0-9_]`. -/
def isWordChar (c : Char) : Bool :=
  (('A' ≤ c && c ≤ 'Z') || ('a' ≤ c && c ≤ 'z') || ('0' ≤ c && c ≤ '9') || c = '_')

/-- Maximal runs of word characters: Python `re.findall(r"[A-Za-z0-9_]+", text)`.
`cur` accumulates the current run in reverse. -/
def wordRunsAux : List Char → List Char → List (List Char)
  | [], cur => if cur = [] then [] else [cur.reverse]
  | c :: rest, cur =>
    if isWordChar c then wordRunsAux rest (c :: cur)
    else if cur = [] then wordRunsAux rest []
    else cur.reverse :: wordRunsAux rest []

def wordRuns (l : List Char) : List (List Char) := wordRunsAux l []

/-- Python `str.split()` (split on whitespace runs, no empty pieces). -/
def splitWsAux : List Char → List Char → List (List Char)
  | [], cur => if cur = [] then [] else [cur.reverse]
  | c :: rest, cur =>
    if c.isWhitespace then
      if cur = [] then splitWsAux rest []
      else cur.reverse :: splitWsAux rest []
    else splitWsAux rest (c :: cur)

def splitWs (l : List Char) : List (List Char) := splitWsAux l []

/-- Python `str.splitlines()` restricted to the `\n`, `\r`, `\r\n`
terminators (the only ones the modelled strings can contain). -/
def splitLinesPy : List Char → List Char → List (List Char)
  | [], cur => if cur = [] then [] else [cur.reverse]
  | '\r' :: '\n' :: rest, cur => cur.reverse :: splitLinesPy rest []
  | '\r' :: rest, cur => cur.reverse :: splitLinesPy rest []
  | '\n' :: rest, cur => cur.reverse :: splitLinesPy rest []
  | c :: rest, cur => splitLinesPy rest (c :: cur)

/-- Python `"\n".join` on raw character lists. -/
def joinNl : List (List Char) → List Char
  | [] => []
  | [l] => l
  | l :: rest => l ++ '\n' :: joinNl rest

/-- Python `" ".join` on raw character lists. -/
def joinSpace : List (List Char) → List Char
  | [] => []
  | [l] => l
  | l :: rest => l ++ ' ' :: joinSpace rest

/-- Python lexicographic code-point comparison of strings (`<`). -/
def strLtB : List Char → List Char → Bool
  | [], [] => false
  | [], _ :: _ => true
  | _ :: _, [] => false
  | a :: as, b :: bs => a < b || (a = b && strLtB as bs)

/-- Python truthiness-based default for optional integers:
`value or default` where `0` and a missing value are falsy. -/
def pyOrInt (v : Option Int) (d : Int) : Int :=
  match v with
  | none => d
  | some x => if x = 0 then d else x

/-- Python truthiness-based default for optional strings:
`value or default` where `""` and a missing value are falsy. -/
def pyOrStr (v : Option String) (d : String) : String :=
  match v with
  | none => d
  | some s => if s = "" then d else s

/-- Python truthiness-based default for an optional `limit` argument
(`limit or n`, where `None` and `0` are falsy). -/
def pyOrNat (v : Option Nat) (d : Nat) : Nat :=
  match v with
  | none => d
  | some x => if x = 0 then d else x

/-! ### Rows fetched from the database

`Database.fetch_markdowns` returns dictionaries; `Researcher` reads the
keys below (`document_id` is always present in fetched rows, the others
are read through `row.get`). -/

structure DbRow where
  document_id : String
  section_id : Option String
  content : Option String
  emb : List ℚ
  tsv : Option String
  start_page : Option Int
  end_page : Option Int
  start_line : Option Int
  end_line : Option Int
deriving DecidableEq, Repr

/-! ### `Researcher._build_citation` (researcher.py lines 83-93) -/

/-- Faithful model of `Researcher._build_citation`. -/
def buildCitation (row : DbRow) : String :=
  let documentId := row.document_id
  let sectionId := pyOrStr row.section_id "root"
  let startPage := pyOrInt row.start_page 0 + 1
  let endPage := pyOrInt row.end_page (startPage - 1) + 1
  let startLine := pyOrInt row.start_line 1
  let endLine := pyOrInt row.end_line startLine
  "【doc:" ++ documentId ++ " §" ++ sectionId ++ " p." ++ toString startPage ++
    "-" ++ toString endPage ++ " | L" ++ toString startLine ++ "-" ++
    toString endLine ++ "】"

/-- The citation format named by the spec:
`【doc:{document_id} §{section_id|root} p.{sp}-{ep} | L{sl}-{el}】`.
Stated from the spec's words, to compare `buildCitation` against. -/
def specCitation (docId sectionId : String) (sp ep sl el : Int) : String :=
  "【doc:" ++ docId ++ " §" ++ sectionId ++ " p." ++ toString sp ++ "-" ++
    toString ep ++ " | L" ++ toString sl ++ "-" ++ toString el ++ "】"

/-- Counterexample row for C7: pages satisfy `0 ≤ 0 ≤ 0`, but the stored
line numbers `start_line = 0`, `end_line = 2` are rendered as `L1-2`, not
`L0-2` as the claimed format demands (`0` is falsy for `or`). -/
def c7Row : DbRow :=
  { document_id := "d", section_id := none, content := none, emb := [],
    tsv := none, start_page := some 0, end_page := some 0,
    start_line := some 0, end_line := some 2 }

/-- C7 (counterexample): the row `c7Row` has stored pages `0 ≤ 0 ≤ 0`, yet
the built citation is not the claimed format instantiated with its stored
line numbers: `start_line = 0` is rendered as `1`. -/
theorem c7_counterexample :
    buildCitation c7Row ≠
      specCitation "d" "root" (0 + 1) (0 + 1) 0 2 ∧
    buildCitation c7Row = specCitation "d" "root" 1 1 1 2 := by
  constructor <;> decide

/-- C7 (amended): for every retrieved row whose stored pages satisfy
`0 ≤ start_page ≤ end_page`, the citation matches the exact
`【doc:… §… p.…-… | L…-…】` format with pages rendered 1-indexed
(`1 ≤ start ≤ end`), a missing or empty `section_id` rendered as `root`,
and the line fields rendered through the code's falsy defaulting: a
missing or zero `start_line` renders as `1`, and a missing or zero
`end_line` renders as the rendered start line. -/
theorem c7_citation_format (row : DbRow) (sp ep : Int)
    (hsp : row.start_page = some sp) (hep : row.end_page = some ep)
    (h0 : 0 ≤ sp) (hle : sp ≤ ep) :
    buildCitation row =
      specCitation row.document_id (pyOrStr row.section_id "root")
        (sp + 1) (ep + 1) (pyOrInt row.start_line 1)
        (pyOrInt row.end_line (pyOrInt row.start_line 1)) ∧
    1 ≤ sp + 1 ∧ sp + 1 ≤ ep + 1 := by
  refine ⟨?_, by omega, by omega⟩
  unfold buildCitation specCitation
  rw [hsp, hep]
  have hsp2 : pyOrInt (some sp) 0 = sp := by
    unfold pyOrInt
    by_cases h : sp = 0 <;> simp [h]
  rw [hsp2]
  by_cases h : ep = 0
  · have hsp0 : sp = 0 := by omega
    simp [pyOrInt, h, hsp0]
  · simp [pyOrInt, h]

/-- Witness for C7 (amended) at a concrete row. -/
theorem c7_citation_format_witness :
    buildCitation
        { document_id := "d", section_id := none, content := none,
          emb := [], tsv := none, start_page := some 0, end_page := some 2,
          start_line := some 4, end_line := some 9 } =
      specCitation "d" "root" 1 3 4 9 ∧ (1 : Int) ≤ 1 ∧ (1 : Int) ≤ 3 := by
  have h := c7_citation_format
    { document_id := "d", section_id := none, content := none,
      emb := [], tsv := none, start_page := some 0, end_page := some 2,
      start_line := some 4, end_line := some 9 }
    0 2 rfl rfl (by decide) (by decide)
  exact ⟨h.1, by decide, by decide⟩

/-! ### `models.ResearchHit` -/

structure ResearchHitM where
  document_id : String
  section_id : Option String
  content : String
  score : ℚ
  citation : String
  start_page : Int
  end_page : Int
  start_line : Int
  end_line : Int
deriving DecidableEq, Repr

/-! ### `Expert` — the citation-enforcing answer composer (expert.py)

`CitationError` is modelled as the `Except.error` message string. -/

/-- The sentence-boundary characters of `Expert.SENTENCE_REGEX`
(`(?<=[.!?])\s+`). -/
def isSentPunct (c : Char) : Bool := c = '.' || c = '!' || c = '?'

/-- Model of `re.split(r"(?<=[.!?])\s+", text)`: a maximal whitespace run
immediately preceded by `.`, `!` or `?` separates sentences.  `cur` holds
the current piece reversed, `prevPunct` records whether the previous
character was a boundary punctuation mark, `skipping` whether we are
inside a separator run. -/
def sentAux : List Char → List Char → Bool → Bool → List (List Char)
  | [], cur, _, _ => [cur.reverse]
  | c :: rest, cur, prevPunct, skipping =>
    if skipping then
      if c.isWhitespace then sentAux rest cur prevPunct true
      else sentAux rest [c] (isSentPunct c) false
    else if c.isWhitespace && prevPunct then
      cur.reverse :: sentAux rest [] false true
    else sentAux rest (c :: cur) (isSentPunct c) false

def splitSentences (l : List Char) : List (List Char) := sentAux l [] false false

/-- Model of `Expert._summarize`. -/
def summarize (maxSentences : Nat) (content : String) : String :=
  let text := pyStrip content.data
  if text.isEmpty then ""
  else
    let sentences := splitSentences text
    let selected := sentences.take maxSentences
    let pieces := (selected.map pyStrip).filter (fun s => !s.isEmpty)
    String.mk ((joinSpace pieces).take 500)

/-- Model of `Expert._validate`: `none` means the markdown passed the
gate, `some msg` that a `CitationError` with message `msg` was raised. -/
def validateAnswer (markdown : String) : Option String :=
  if !(markdown.data.contains '【') || !(markdown.data.contains '】') then
    some "Missing citation markers"
  else if (splitLinesPy markdown.data []).all (fun line =>
      !((pyStrip line).head? == some '-') || (pyStrip line).contains '【') then
    none
  else some "Evidence bullet lacks citation"

/-- Model of `Expert.compose_answer` (the `question` argument is unused by
the source). -/
def composeAnswer (maxSentences : Nat) (hits : List ResearchHitM) :
    Except String String :=
  if hits.isEmpty then .error "No evidence supplied for answer"
  else
    let bulletLines := hits.filterMap fun hit =>
      let summary := summarize maxSentences hit.content
      if summary = "" then none else some ("- " ++ summary ++ " " ++ hit.citation)
    if bulletLines.isEmpty then .error "Unable to summarize evidence with citations"
    else
      let answer := String.mk (joinNl ("### Answer".data :: [] :: bulletLines.map String.data))
      match validateAnswer answer with
      | some err => .error err
      | none => .ok answer

/-- The claim's property of a composed answer: every line whose stripped
form starts with the bullet marker contains both citation delimiters. -/
def bulletLinesCited (s : String) : Bool :=
  (splitLinesPy s.data []).all fun line =>
    let st := pyStrip line
    !(st.head? == some '-') || (st.contains '【' && st.contains '】')

/-- Counterexample evidence list for C1: the second citation lacks the
closing delimiter, but the first bullet supplies one somewhere in the
text, so the whole-text check and the per-bullet opening-delimiter check
both pass. -/
def c1Hits : List ResearchHitM :=
  [{ document_id := "d", section_id := none, content := "First fact.",
     score := 0, citation := "【doc:d §root p.1-1 | L1-1】",
     start_page := 0, end_page := 0, start_line := 1, end_line := 1 },
   { document_id := "d", section_id := none, content := "Second fact.",
     score := 0, citation := "【doc:d §root p.1-1 | L1-1",
     start_page := 0, end_page := 0, start_line := 1, end_line := 1 }]

/-- C1 (counterexample): on `c1Hits`, `compose_answer` neither raises nor
returns text whose every bullet line contains both delimiters — the
second bullet line has `【` but no `】`. -/
theorem c1_counterexample :
    (match composeAnswer 2 c1Hits with
     | .ok s => some (bulletLinesCited s)
     | .error _ => none) = some false := by
  decide

/-- C1 (amended): whenever `compose_answer` returns text (rather than
raising a typed `CitationError`), every line whose stripped form starts
with the bullet marker contains the opening delimiter `【`, and the text
as a whole contains both the opening and the closing delimiter. -/
theorem c1_composer_gate (maxSentences : Nat) (hits : List ResearchHitM)
    (s : String) (h : composeAnswer maxSentences hits = .ok s) :
    ((splitLinesPy s.data []).all (fun line =>
        !((pyStrip line).head? == some '-') || (pyStrip line).contains '【')) = true ∧
    s.data.contains '【' = true ∧ s.data.contains '】' = true := by
  unfold composeAnswer at h
  by_cases h0 : hits.isEmpty
  · simp [h0] at h
  · simp only [h0, if_false, Bool.false_eq_true] at h
    set bulletLines := hits.filterMap fun hit =>
      let summary := summarize maxSentences hit.content
      if summary = "" then none
      else some ("- " ++ summary ++ " " ++ hit.citation) with hbl
    by_cases h1 : bulletLines.isEmpty
    · simp [h1] at h
    · simp only [h1, if_false, Bool.false_eq_true] at h
      set answer := String.mk
        (joinNl ("### Answer".data :: [] :: bulletLines.map String.data)) with hans
      rcases hv : validateAnswer answer with _ | err
      · rw [hv] at h
        simp only [Except.ok.injEq] at h
        subst h
        unfold validateAnswer at hv
        by_cases hc : (!(answer.data.contains '【') || !(answer.data.contains '】')) = true
        · rw [if_pos hc] at hv; exact absurd hv (by simp)
        · rw [if_neg hc] at hv
          have hc2 : answer.data.contains '【' = true ∧
              answer.data.contains '】' = true := by
            rcases Bool.eq_false_or_eq_true (answer.data.contains '【') with h3 | h3 <;>
              rcases Bool.eq_false_or_eq_true (answer.data.contains '】') with h4 | h4 <;>
              first
                | exact ⟨h3, h4⟩
                | exact absurd (by rw [h3, h4]; rfl) hc
          by_cases hall : ((splitLinesPy answer.data []).all (fun line =>
              !((pyStrip line).head? == some '-') ||
                (pyStrip line).contains '【')) = true
          · exact ⟨hall, hc2.1, hc2.2⟩
          · rw [if_neg hall] at hv; exact absurd hv (by simp)
      · rw [hv] at h; exact absurd h (by simp)

/-- Witness for C1 (amended) at a concrete evidence list. -/
theorem c1_composer_gate_witness :
    ((splitLinesPy ("### Answer\n\n- Good fact. 【x】" : String).data []).all
        (fun line => !((pyStrip line).head? == some '-') ||
          (pyStrip line).contains '【')) = true ∧
    ("### Answer\n\n- Good fact. 【x】" : String).data.contains '【' = true ∧
    ("### Answer\n\n- Good fact. 【x】" : String).data.contains '】' = true :=
  c1_composer_gate 2
    [{ document_id := "d", section_id := none, content := "Good fact.",
       score := 0, citation := "【x】",
       start_page := 0, end_page := 0, start_line := 1, end_line := 1 }]
    "### Answer\n\n- Good fact. 【x】" rfl

/-! ### Arithmetic primitives for the numpy backend -/

/-- Model of the machine square root (`math.sqrt`, `numpy.linalg.norm`'s
final step): exact on perfect squares, a deterministic rational
approximation elsewhere, `0` on non-positive input.  Every concrete input
used in this development stays in the exact branch. -/
def sqrtQ (q : ℚ) : ℚ :=
  if q ≤ 0 then 0
  else
    let n := q.num.toNat
    let d := q.den
    if Nat.sqrt n * Nat.sqrt n = n ∧ Nat.sqrt d * Nat.sqrt d = d then
      (Nat.sqrt n : ℚ) / (Nat.sqrt d : ℚ)
    else (Nat.sqrt (n * 1000000000000 / d) : ℚ) / 1000000

/-- Sum of squares of a vector (the accumulation inside
`numpy.linalg.norm` and `cosine_similarity`). -/
def sumSq (v : List ℚ) : ℚ := v.foldl (fun acc x => acc + x * x) 0

/-- Dot product over zipped components (numpy `@`, and the `zip` loop of
`cosine_similarity`). -/
def dotQ (a b : List ℚ) : ℚ := (a.zip b).foldl (fun acc p => acc + p.1 * p.2) 0

theorem sumSq_of_zeros (v : List ℚ) (h : ∀ x ∈ v, x = 0) : sumSq v = 0 := by
  have key : ∀ (l : List ℚ) (acc : ℚ), (∀ x ∈ l, x = 0) →
      l.foldl (fun a x => a + x * x) acc = acc := by
    intro l
    induction l with
    | nil => intro acc _; rfl
    | cons y ys ih =>
      intro acc hz
      have hy : y = 0 := hz y (List.mem_cons_self y ys)
      have : ∀ x ∈ ys, x = 0 := fun x hx => hz x (List.mem_cons_of_mem y hx)
      simp only [List.foldl_cons, hy, mul_zero, add_zero, ih _ this]
  exact key v 0 h

theorem sqrtQ_zero : sqrtQ 0 = 0 := by
  unfold sqrtQ
  norm_num

/-! ### `_NumpyBackend` (vector_index.py lines 103-227)

State of the in-process backend: `ids`, `metadata` (a Python dict
modelled as an insertion-ordered association list), the fixed `dimension`
and the dense `vectors` matrix (a list of rows).  Metadata payloads are
abstracted to strings. -/

structure VectorItemM where
  id : String
  embedding : List ℚ
  metadata : String
deriving DecidableEq, Repr

structure NumpyState where
  ids : List String
  metadata : List (String × String)
  dimension : Option Nat
  vectors : List (List ℚ)
deriving DecidableEq, Repr

/-- Python dict assignment `d[k] = v`: replace in place if the key
exists, append otherwise. -/
def dictSet (d : List (String × String)) (k v : String) : List (String × String) :=
  if d.any (fun kv => kv.1 == k) then
    d.map (fun kv => if kv.1 == k then (k, v) else kv)
  else d ++ [(k, v)]

/-- The per-item loop of `_NumpyBackend.upsert`.  `localV` models the
local variable `vectors`; `aliased` records whether it still aliases
`self.vectors` (it does until the first `np.vstack`/`reshape` rebinds it
to a fresh array), so that in-place row updates of an existing id write
through to the state exactly when the Python code does.  A raised
`ValueError` is returned as `some message` together with the state the
exception leaves behind; success commits `localV` as `self.vectors`. -/
def npUpsertGo : List VectorItemM → NumpyState → List (List ℚ) → Bool →
    NumpyState × Option String
  | [], st, localV, _ => ({ st with vectors := localV }, none)
  | item :: rest, st, localV, aliased =>
    let norm := sqrtQ (sumSq item.embedding)
    if norm = 0 then (st, some "Cannot index zero-length embedding")
    else
      let vector := item.embedding.map (· / norm)
      let dim := st.dimension.getD vector.length
      let st1 := { st with dimension := some dim }
      if vector.length ≠ dim then
        (st1, some ("Embedding dimension mismatch: expected " ++ toString dim ++
          ", got " ++ toString vector.length))
      else if st1.ids.contains item.id then
        let idx := st1.ids.findIdx (fun x => x == item.id)
        let st2 := if aliased then { st1 with vectors := st1.vectors.set idx vector }
          else st1
        let st3 := { st2 with metadata := dictSet st2.metadata item.id item.metadata }
        npUpsertGo rest st3 (localV.set idx vector) aliased
      else if localV.isEmpty then
        let newIds := st1.ids ++ [item.id]
        let st3 := { st1 with ids := newIds, metadata := dictSet st1.metadata item.id item.metadata }
        npUpsertGo rest st3 [vector] false
      else if vector.length ≠ (localV.headD []).length then
        (st1, some ("Embedding dimension mismatch: expected " ++
          toString (localV.headD []).length ++ ", got " ++ toString vector.length))
      else
        let newIds := st1.ids ++ [item.id]
        let st3 := { st1 with ids := newIds, metadata := dictSet st1.metadata item.id item.metadata }
        npUpsertGo rest st3 (localV ++ [vector]) false

/-- Model of `_NumpyBackend.upsert`. -/
def npUpsert (st : NumpyState) (items : List VectorItemM) : NumpyState × Option String :=
  npUpsertGo items st st.vectors true

/-- Ascending comparison used to model `np.argsort` on the score vector:
sort index `i` before `j` when its score is smaller, with the original
index order breaking ties (a stable ascending argsort). -/
def ascRel (scores : List ℚ) (i j : Nat) : Prop :=
  scores.getD i 0 < scores.getD j 0 ∨ (scores.getD i 0 = scores.getD j 0 ∧ i ≤ j)

instance ascRelDec (scores : List ℚ) : DecidableRel (ascRel scores) := fun i j => by
  unfold ascRel; exact inferInstance

instance ascRelTotal (scores : List ℚ) : IsTotal Nat (ascRel scores) := by
  constructor
  intro i j
  unfold ascRel
  rcases lt_trichotomy (scores.getD i 0) (scores.getD j 0) with h | h | h
  · exact Or.inl (Or.inl h)
  · rcases Nat.le_total i j with h2 | h2
    · exact Or.inl (Or.inr ⟨h, h2⟩)
    · exact Or.inr (Or.inr ⟨h.symm, h2⟩)
  · exact Or.inr (Or.inl h)

instance ascRelTrans (scores : List ℚ) : IsTrans Nat (ascRel scores) := by
  constructor
  intro i j k hij hjk
  unfold ascRel at *
  rcases hij with h1 | ⟨h1, h1n⟩ <;> rcases hjk with h2 | ⟨h2, h2n⟩
  · exact Or.inl (h1.trans h2)
  · exact Or.inl (h2 ▸ h1)
  · exact Or.inl (h1 ▸ h2)
  · exact Or.inr ⟨h1.trans h2, h1n.trans h2n⟩

/-- Model of `np.argsort(scores)` (ascending, ties kept in index order). -/
def argsortAsc (scores : List ℚ) : List Nat :=
  List.insertionSort (ascRel scores) (List.range scores.length)

/-- The normalized query vector (`embedding / np.linalg.norm(embedding)`). -/
def npQuery (emb : List ℚ) : List ℚ := emb.map (· / sqrtQ (sumSq emb))

/-- The score vector `self.vectors @ query`. -/
def npScores (st : NumpyState) (emb : List ℚ) : List ℚ :=
  st.vectors.map (fun row => dotQ row (npQuery emb))

/-- The index order `np.argsort(scores)[::-1][:limit]` produced by
`_NumpyBackend.search`, with the guards of the source. -/
def npSearchOrder (st : NumpyState) (emb : List ℚ) (limit : Option Nat) : List Nat :=
  if st.vectors.isEmpty then []
  else if sqrtQ (sumSq emb) = 0 then []
  else
    let scores := npScores st emb
    let lim := min (pyOrNat limit scores.length) scores.length
    ((argsortAsc scores).reverse).take lim

/-- Model of `_NumpyBackend.search`. -/
def npSearch (st : NumpyState) (emb : List ℚ) (limit : Option Nat) :
    List (String × ℚ) :=
  (npSearchOrder st emb limit).map
    (fun idx => (st.ids.getD idx "", (npScores st emb).getD idx 0))

/-- An index holding two identical unit vectors, `"a"` inserted before
`"b"` (built through `upsert` from the empty backend state). -/
def c4State : NumpyState :=
  (npUpsert { ids := [], metadata := [], dimension := none, vectors := [] }
    [{ id := "a", embedding := [1, 0], metadata := "m" },
     { id := "b", embedding := [1, 0], metadata := "m" }]).1

/-- C4 (counterexample): `"a"` and `"b"` hold the same stored vector, so
their similarity scores to the query tie exactly; the claim requires the
earlier-inserted `"a"` first, but the reversed ascending argsort returns
`"b"` first. -/
theorem c4_counterexample :
    (npSearch c4State [1, 0] none).map Prod.fst = ["b", "a"] := by
  with_unfolding_all decide

/-- C4 (amended): `search` returns pairs ordered by descending cosine
score (the dot product of a stored unit row with the unit-normalized
query), but ties are returned in *reverse* insertion order: whenever two
returned indices have equal scores, the later-inserted row precedes the
earlier one.  The second conjunct ties the index order to the actual
output of `search`. -/
theorem c4_search_order (st : NumpyState) (emb : List ℚ) (limit : Option Nat) :
    List.Pairwise (fun i j =>
      (npScores st emb).getD j 0 < (npScores st emb).getD i 0 ∨
      ((npScores st emb).getD i 0 = (npScores st emb).getD j 0 ∧ j < i))
      (npSearchOrder st emb limit) ∧
    npSearch st emb limit = (npSearchOrder st emb limit).map
      (fun idx => (st.ids.getD idx "", (npScores st emb).getD idx 0)) := by
  refine ⟨?_, rfl⟩
  unfold npSearchOrder
  by_cases h1 : st.vectors.isEmpty
  · simp [h1]
  · by_cases h2 : sqrtQ (sumSq emb) = 0
    · simp [h1, h2]
    · simp only [h1, h2, Bool.false_eq_true, if_false, if_neg]
      set scores := npScores st emb with hs
      have hsorted : List.Sorted (ascRel scores) (argsortAsc scores) :=
        List.sorted_insertionSort _ _
      have hnodup : (argsortAsc scores).Nodup :=
        ((List.perm_insertionSort (ascRel scores) (List.range scores.length)).nodup_iff).mpr
          (List.nodup_range _)
      have hpair : List.Pairwise (fun i j => ascRel scores i j ∧ i ≠ j)
          (argsortAsc scores) := hsorted.and hnodup
      have hrev : List.Pairwise (fun i j => ascRel scores j i ∧ j ≠ i)
          (argsortAsc scores).reverse := List.pairwise_reverse.mpr hpair
      refine List.Pairwise.imp ?_
        (List.Pairwise.sublist (List.take_sublist _ _) hrev)
      intro i j hij
      rcases hij with ⟨hrel, hne⟩
      rcases hrel with h | ⟨heq, hle⟩
      · exact Or.inl h
      · exact Or.inr ⟨heq.symm, lt_of_le_of_ne hle hne⟩

/-- The state after a successful insert of `"a" ↦ [1, 0]`, used as the
pre-state of the C5 failing input. -/
def c5Init : NumpyState :=
  (npUpsert { ids := [], metadata := [], dimension := none, vectors := [] }
    [{ id := "a", embedding := [1, 0], metadata := "m" }]).1

/-- C5 (code bug, evaluation): upserting the batch
`[("a", [0,1]), ("z", [0,0])]` over an index holding `"a" ↦ [1,0]` raises
the zero-vector error on the second item, yet the previously stored
vector of `"a"` has already been overwritten in place — the aborted
insert corrupts an existing entry, contradicting the spec's requirement
that it must not. -/
theorem c5_upsert_corruption :
    (npUpsert c5Init [{ id := "a", embedding := [0, 1], metadata := "m2" },
        { id := "z", embedding := [0, 0], metadata := "m3" }]).2 =
      some "Cannot index zero-length embedding" ∧
    c5Init.vectors = [[1, 0]] ∧
    (npUpsert c5Init [{ id := "a", embedding := [0, 1], metadata := "m2" },
        { id := "z", embedding := [0, 0], metadata := "m3" }]).1.vectors = [[0, 1]] := by
  refine ⟨?_, ?_, ?_⟩ <;> with_unfolding_all decide

/-- C10: a zero-norm (all-zeros) query makes `search` return the empty
list without touching the state (the model of `search` is read-only, as
the source method never assigns to `self`), while `upsert` rejects the
same vector with the zero-vector `ValueError`, leaving the state
unchanged because the offending item is checked before any mutation. -/
theorem c10_zero_query (st : NumpyState) (emb : List ℚ) (vid vmeta : String)
    (h : ∀ x ∈ emb, x = 0) :
    npSearch st emb none = [] ∧
    npUpsert st [{ id := vid, embedding := emb, metadata := vmeta }] =
      (st, some "Cannot index zero-length embedding") := by
  have hz : sqrtQ (sumSq emb) = 0 := by rw [sumSq_of_zeros emb h, sqrtQ_zero]
  constructor
  · unfold npSearch npSearchOrder
    by_cases h1 : st.vectors.isEmpty
    · simp [h1]
    · simp [h1, hz]
  · unfold npUpsert npUpsertGo
    simp [hz]

/-- Witness for C10 at a concrete state and query. -/
theorem c10_zero_query_witness :
    npSearch c5Init [0, 0] none = [] ∧
    npUpsert c5Init [{ id := "z", embedding := [0, 0], metadata := "m" }] =
      (c5Init, some "Cannot index zero-length embedding") :=
  c10_zero_query c5Init [0, 0] "z" "m" (by
    intro x hx
    simp only [List.mem_cons, List.not_mem_nil, or_false] at hx
    rcases hx with rfl | rfl <;> rfl)

/-! ### `FileCache` and `EmbeddingClient.embed_texts` (cache.py, embeddings.py)

The file cache is modelled as an association list keyed by
`(namespace, key)`; `set` prepends (a fresh write shadows nothing because
the code only writes absent keys).  The external embedding call
`_embed_single` is a parameter, and `embedTextsGo` additionally returns
the list of texts for which it was invoked. -/

def CacheM : Type := List ((String × String) × List ℚ)

def cacheGet (cache : CacheM) (ns key : String) : Option (List ℚ) :=
  List.lookup (ns, key) cache

def cacheSet (cache : CacheM) (ns key : String) (v : List ℚ) : CacheM :=
  ((ns, key), v) :: cache

/-- The per-text loop of `EmbeddingClient.embed_texts`: returns the
output vectors, the final cache, and the texts passed to
`_embed_single`.  `keyFn` models `stable_hash([self.model, text])` for
the client's fixed model. -/
def embedTextsGo (keyFn : String → String) (embedSingle : String → List ℚ) :
    List String → CacheM → List (List ℚ) × CacheM × List String
  | [], cache => ([], cache, [])
  | t :: ts, cache =>
    match cacheGet cache "embeddings" (keyFn t) with
    | some v =>
      let r := embedTextsGo keyFn embedSingle ts cache
      (v :: r.1, r.2.1, r.2.2)
    | none =>
      let e := embedSingle t
      let c1 := cacheSet cache "embeddings" (keyFn t) e
      let r := embedTextsGo keyFn embedSingle ts c1
      (e :: r.1, r.2.1, t :: r.2.2)

theorem cacheGet_set_ne (cache : CacheM) (ns key ns2 key2 : String) (v : List ℚ)
    (h : (ns, key) ≠ (ns2, key2)) :
    cacheGet (cacheSet cache ns2 key2 v) ns key = cacheGet cache ns key := by
  unfold cacheGet cacheSet
  rw [List.lookup_cons]
  have : ((ns, key) == (ns2, key2)) = false := beq_eq_false_iff_ne.mpr h
  rw [this]

/-- A cached entry survives an `embed_texts` run unchanged: writes only
happen at keys that were absent. -/
theorem embedTextsGo_preserves (keyFn : String → String)
    (embedSingle : String → List ℚ) (ts : List String) (cache : CacheM)
    (ns key : String) (v : List ℚ) (h : cacheGet cache ns key = some v) :
    cacheGet (embedTextsGo keyFn embedSingle ts cache).2.1 ns key = some v := by
  induction ts generalizing cache with
  | nil => exact h
  | cons t ts ih =>
    unfold embedTextsGo
    rcases hget : cacheGet cache "embeddings" (keyFn t) with _ | w
    · have hne : (ns, key) ≠ ("embeddings", keyFn t) := by
        intro heq
        rw [show ns = "embeddings" from congrArg Prod.fst heq,
          show key = keyFn t from congrArg Prod.snd heq] at h
        rw [h] at hget
        exact Option.noConfusion hget
      exact ih _ (by rw [cacheGet_set_ne _ _ _ _ _ _ hne]; exact h)
    · exact ih _ h

/-- After an `embed_texts` run, every processed text's key is cached. -/
theorem embedTextsGo_present (keyFn : String → String)
    (embedSingle : String → List ℚ) (ts : List String) (cache : CacheM)
    (t : String) (ht : t ∈ ts) :
    ∃ v, cacheGet (embedTextsGo keyFn embedSingle ts cache).2.1
      "embeddings" (keyFn t) = some v := by
  induction ts generalizing cache with
  | nil => exact absurd ht (List.not_mem_nil t)
  | cons u ts ih =>
    unfold embedTextsGo
    rcases List.mem_cons.mp ht with rfl | hts
    · rcases hget : cacheGet cache "embeddings" (keyFn t) with _ | w
      · refine ⟨embedSingle t, embedTextsGo_preserves _ _ _ _ _ _ _ ?_⟩
        unfold cacheGet cacheSet
        rw [List.lookup_cons]
        simp
      · exact ⟨w, embedTextsGo_preserves _ _ _ _ _ _ _ hget⟩
    · rcases hget : cacheGet cache "embeddings" (keyFn u) with _ | w
      · exact ih _ hts
      · exact ih _ hts

/-- When every text in the batch is cached, `embed_texts` reads
everything from the cache: outputs are the cached values, the cache is
unchanged and `_embed_single` is never called. -/
theorem embedTextsGo_all_cached (keyFn : String → String)
    (embedSingle : String → List ℚ) (ts : List String) (cache : CacheM)
    (h : ∀ t ∈ ts, (cacheGet cache "embeddings" (keyFn t)).isSome) :
    embedTextsGo keyFn embedSingle ts cache =
      (ts.map (fun t => (cacheGet cache "embeddings" (keyFn t)).getD []),
        cache, []) := by
  induction ts with
  | nil => rfl
  | cons t ts ih =>
    unfold embedTextsGo
    rcases hget : cacheGet cache "embeddings" (keyFn t) with _ | w
    · have := h t (List.mem_cons_self t ts)
      rw [hget] at this
      exact absurd this (by simp)
    · rw [ih (fun u hu => h u (List.mem_cons_of_mem t hu))]
      simp [hget]

/-- The outputs of an `embed_texts` run coincide with the final cache's
entries at the corresponding keys. -/
theorem embedTextsGo_outputs (keyFn : String → String)
    (embedSingle : String → List ℚ) (ts : List String) (cache : CacheM) :
    (embedTextsGo keyFn embedSingle ts cache).1 =
      ts.map (fun t =>
        (cacheGet (embedTextsGo keyFn embedSingle ts cache).2.1
          "embeddings" (keyFn t)).getD []) := by
  induction ts generalizing cache with
  | nil => rfl
  | cons t ts ih =>
    unfold embedTextsGo
    rcases hget : cacheGet cache "embeddings" (keyFn t) with _ | w
    · have hme : cacheGet (cacheSet cache "embeddings" (keyFn t) (embedSingle t))
          "embeddings" (keyFn t) = some (embedSingle t) := by
        unfold cacheGet cacheSet
        rw [List.lookup_cons]
        simp
      have hfin := embedTextsGo_preserves keyFn embedSingle ts _ _ _ _ hme
      simp only [List.map_cons, List.cons.injEq]
      exact ⟨by rw [hfin]; rfl, ih _⟩
    · have hfin := embedTextsGo_preserves keyFn embedSingle ts cache _ _ _ hget
      simp only [List.map_cons, List.cons.injEq]
      exact ⟨by rw [hfin]; rfl, ih _⟩

/-- C9: (i) a text whose cache key is present is never passed to the
external `_embed_single` call, and its output positions carry the cached
vector; (ii) a second run over the byte-identical batch is served purely
from cache: it makes zero external calls, returns the same outputs, and
leaves the cache untouched. -/
theorem c9_cache_hits (keyFn : String → String)
    (embedSingle : String → List ℚ) (ts : List String) (cache : CacheM)
    (t : String) (v : List ℚ)
    (h : cacheGet cache "embeddings" (keyFn t) = some v) :
    t ∉ (embedTextsGo keyFn embedSingle ts cache).2.2 ∧
    (∀ i : Nat, ts[i]? = some t →
      (embedTextsGo keyFn embedSingle ts cache).1[i]? = some v) ∧
    (embedTextsGo keyFn embedSingle ts
        (embedTextsGo keyFn embedSingle ts cache).2.1 =
      ((embedTextsGo keyFn embedSingle ts cache).1,
        (embedTextsGo keyFn embedSingle ts cache).2.1, [])) := by
  refine ⟨?_, ?_, ?_⟩
  · induction ts generalizing cache with
    | nil => simp [embedTextsGo]
    | cons u ts ih =>
      unfold embedTextsGo
      rcases hget : cacheGet cache "embeddings" (keyFn u) with _ | w
      · have hne : t ≠ u := by
          rintro rfl
          rw [h] at hget
          exact Option.noConfusion hget
        have hpres : cacheGet (cacheSet cache "embeddings" (keyFn u) (embedSingle u))
            "embeddings" (keyFn t) = some v := by
          have hkey : ("embeddings", keyFn t) ≠ ("embeddings", keyFn u) := by
            intro heq
            have : keyFn t = keyFn u := congrArg Prod.snd heq
            rw [this, hget] at h
            exact Option.noConfusion h
          rw [cacheGet_set_ne _ _ _ _ _ _ hkey]
          exact h
        simp only [List.mem_cons, not_or]
        exact ⟨hne, ih _ hpres⟩
      · exact ih _ h
  · induction ts generalizing cache with
    | nil => intro i hi; simp at hi
    | cons u ts ih =>
      intro i hi
      unfold embedTextsGo
      rcases hget : cacheGet cache "embeddings" (keyFn u) with _ | w
      · rcases i with _ | i
        · simp only [List.getElem?_cons_zero, Option.some.injEq] at hi
          subst hi
          rw [h] at hget
          exact Option.noConfusion hget
        · simp only [List.getElem?_cons_succ] at hi ⊢
          have hpres : cacheGet (cacheSet cache "embeddings" (keyFn u) (embedSingle u))
              "embeddings" (keyFn t) = some v := by
            have hkey : ("embeddings", keyFn t) ≠ ("embeddings", keyFn u) := by
              intro heq
              have : keyFn t = keyFn u := congrArg Prod.snd heq
              rw [this, hget] at h
              exact Option.noConfusion h
            rw [cacheGet_set_ne _ _ _ _ _ _ hkey]
            exact h
          exact ih _ hpres i hi
      · rcases i with _ | i
        · simp only [List.getElem?_cons_zero, Option.some.injEq] at hi
          subst hi
          rw [h] at hget
          simp only [List.getElem?_cons_zero, Option.some.injEq]
          exact (Option.some.injEq _ _).mp hget.symm
        · simp only [List.getElem?_cons_succ] at hi ⊢
          exact ih _ h i hi
  · have hpresent : ∀ u ∈ ts,
        (cacheGet (embedTextsGo keyFn embedSingle ts cache).2.1
          "embeddings" (keyFn u)).isSome := by
      intro u hu
      rcases embedTextsGo_present keyFn embedSingle ts cache u hu with ⟨w, hw⟩
      rw [hw]; rfl
    rw [embedTextsGo_all_cached keyFn embedSingle ts _ hpresent,
      ← embedTextsGo_outputs]

/-! ### embedding.py — similarity and lexical utilities -/

/-- Model of `cosine_similarity`: the zip-accumulated dot product and
squared norms, with the zero-norm guard and division by the square root
of the norm product. -/
def cosineSimilarity (a b : List ℚ) : ℚ :=
  let ps := a.zip b
  let dot := ps.foldl (fun acc p => acc + p.1 * p.2) 0
  let na := ps.foldl (fun acc p => acc + p.1 * p.1) 0
  let nb := ps.foldl (fun acc p => acc + p.2 * p.2) 0
  if na = 0 ∨ nb = 0 then 0 else dot / sqrtQ (na * nb)

def lowerStr (l : List Char) : List Char := l.map Char.toLower

/-- Python `sorted` on strings (code-point order), as used by
`build_tsvector`. -/
def sortStrs (l : List (List Char)) : List (List Char) :=
  List.insertionSort (fun a b => strLtB b a = false) l

/-- Model of `build_tsvector`: lowercase word tokens, deduplicated,
sorted, joined by single spaces. -/
def buildTsvector (text : String) : String :=
  let toks := (wordRuns text.data).map lowerStr
  String.mk (joinSpace (sortStrs toks.dedup))

/-- Model of `count_term_hits`: the number of query terms whose
lowercase form occurs among the whitespace-split tokens of `tsv`. -/
def countTermHits (tsv : String) (terms : List (List Char)) : Nat :=
  let tokenSet := splitWs tsv.data
  (terms.filter (fun term => tokenSet.contains (lowerStr term))).length

/-! ### `Researcher.search` (researcher.py lines 33-105)

The question embedding is an external collaborator
(`EmbeddingClient.embed_query`), so the pipeline is parametrized by the
already-computed `queryEmbedding`; the candidate rows are the result of
`Database.fetch_markdowns`.  The `embedding` component carried through
the Python tuples is read from the row and never used again, so the
tuples are modelled without it. -/

/-- Descending stable order on `(score, row)` pairs:
`scored.sort(key=item[0], reverse=True)`. -/
def scoreGE (x y : ℚ × DbRow) : Prop := y.1 ≤ x.1

instance scoreGEDec : DecidableRel scoreGE := fun x y => by
  unfold scoreGE; exact inferInstance

instance scoreGETotal : IsTotal (ℚ × DbRow) scoreGE := by
  constructor
  intro x y
  exact (le_total y.1 x.1).imp (fun h => h) (fun h => h)

instance scoreGETrans : IsTrans (ℚ × DbRow) scoreGE := by
  constructor
  intro x y z hxy hyz
  exact le_trans hyz hxy

/-- Descending stable order on `(rerank_score, lexical_hits, row)`
triples: `reranked.sort(key=(item[0], item[1]), reverse=True)`. -/
def rerankGE (x y : ℚ × Nat × DbRow) : Prop :=
  y.1 < x.1 ∨ (x.1 = y.1 ∧ y.2.1 ≤ x.2.1)

instance rerankGEDec : DecidableRel rerankGE := fun x y => by
  unfold rerankGE; exact inferInstance

instance rerankGETotal : IsTotal (ℚ × Nat × DbRow) rerankGE := by
  constructor
  intro x y
  unfold rerankGE
  rcases lt_trichotomy x.1 y.1 with h | h | h
  · exact Or.inr (Or.inl h)
  · rcases Nat.le_total x.2.1 y.2.1 with h2 | h2
    · exact Or.inr (Or.inr ⟨h.symm, h2⟩)
    · exact Or.inl (Or.inr ⟨h, h2⟩)
  · exact Or.inl (Or.inl h)

instance rerankGETrans : IsTrans (ℚ × Nat × DbRow) rerankGE := by
  constructor
  intro x y z hxy hyz
  unfold rerankGE at *
  rcases hxy with h1 | ⟨h1, h1n⟩ <;> rcases hyz with h2 | ⟨h2, h2n⟩
  · exact Or.inl (h2.trans h1)
  · exact Or.inl (h2 ▸ h1)
  · exact Or.inl (h1 ▸ h2)
  · exact Or.inr ⟨h1.trans h2, h2n.trans h1n⟩

/-- The query terms `[term for term in build_tsvector(question).split() if term]`
(Python `split()` already yields no empty pieces). -/
def queryTermsOf (question : String) : List (List Char) :=
  splitWs (buildTsvector question).data

/-- The vector-scored candidates, sorted descending by cosine score. -/
def scoredSorted (rows : List DbRow) (queryEmbedding : List ℚ) : List (ℚ × DbRow) :=
  List.insertionSort scoreGE
    (rows.map (fun row => (cosineSimilarity queryEmbedding row.emb, row)))

/-- `vector_top_k = scored[: max(top_k, 12)]`. -/
def vectorTopK (rows : List DbRow) (queryEmbedding : List ℚ) (topK : Nat) :
    List (ℚ × DbRow) :=
  (scoredSorted rows queryEmbedding).take (max topK 12)

/-- The rerank tuples `(score + 0.05 * lexical_hits, lexical_hits, row)`
(the float constant `0.05` is modelled by the rational `1/20`). -/
def rerankTuples (rows : List DbRow) (queryEmbedding : List ℚ)
    (question : String) (topK : Nat) : List (ℚ × Nat × DbRow) :=
  (vectorTopK rows queryEmbedding topK).map (fun sr =>
    let lexicalHits := countTermHits (sr.2.tsv.getD "") (queryTermsOf question)
    (sr.1 + (1 / 20) * lexicalHits, lexicalHits, sr.2))

/-- The reranked candidate list, sorted descending by the combined key. -/
def rerankedList (rows : List DbRow) (queryEmbedding : List ℚ)
    (question : String) (topK : Nat) : List (ℚ × Nat × DbRow) :=
  List.insertionSort rerankGE (rerankTuples rows queryEmbedding question topK)

/-- The number of internally ranked candidates (`len(reranked)`). -/
def rankedCount (rows : List DbRow) (queryEmbedding : List ℚ)
    (question : String) (topK : Nat) : Nat :=
  (rerankedList rows queryEmbedding question topK).length

/-- `final_hits = reranked[: max(top_k, 8)]`. -/
def finalHits (rows : List DbRow) (queryEmbedding : List ℚ)
    (question : String) (topK : Nat) : List (ℚ × Nat × DbRow) :=
  (rerankedList rows queryEmbedding question topK).take (max topK 8)

/-- Substring containment, for the `in` checks of
`_maybe_generate_sql`. -/
def containsSub (l sub : List Char) : Bool :=
  l.tails.any (fun t => sub.isPrefixOf t)

/-- The `ResearchHit` built for a returned row. -/
def mkResearchHit (score : ℚ) (row : DbRow) : ResearchHitM :=
  { document_id := row.document_id
    section_id := row.section_id
    content := row.content.getD ""
    score := score
    citation := buildCitation row
    start_page := pyOrInt row.start_page 0
    end_page := pyOrInt row.end_page (pyOrInt row.start_page 0)
    start_line := pyOrInt row.start_line 1
    end_line := pyOrInt row.end_line (pyOrInt row.start_line 1) }

/-- Model of `Researcher._maybe_generate_sql`. -/
def maybeGenerateSql (question : String) (hits : List ResearchHitM) : Option String :=
  let lowered := lowerStr question.data
  if containsSub lowered "select".data || containsSub lowered "drop".data then none
  else if !containsSub lowered "table".data && !containsSub lowered "column".data then
    none
  else
    match hits with
    | [] => none
    | h :: _ =>
      some ("SELECT * FROM pdf_tables." ++ String.mk (h.document_id.data.take 8) ++
        " LIMIT 10;")

structure ResearchOutM where
  hits : List ResearchHitM
  exhausted : Bool
  sql : Option String
deriving Repr

/-- Model of `Researcher.search`. -/
def searchR (rows : List DbRow) (queryEmbedding : List ℚ) (question : String)
    (topK : Nat) : ResearchOutM :=
  if (pyStrip question.data).isEmpty then
    { hits := [], exhausted := true, sql := none }
  else
    let fh := finalHits rows queryEmbedding question topK
    let hits := (fh.take topK).map (fun t => mkResearchHit t.1 t.2.2)
    { hits := hits, exhausted := decide (fh.length ≤ topK),
      sql := maybeGenerateSql question hits }

/-- Thirteen identical candidate rows (more than `max(k, 12) = 12` for
`k = 10`, so deeper candidates exist beyond every truncation). -/
def c3Rows : List DbRow :=
  List.replicate 13
    { document_id := "d", section_id := none, content := none, emb := [1],
      tsv := none, start_page := none, end_page := none,
      start_line := none, end_line := none }

/-- C3 (counterexample): with 13 candidates and `k = 10`, twelve
candidates are internally ranked — strictly more than `k` — yet
`exhausted` is `true`, because the code computes it from the list already
truncated to `max(k, 8) = 10`. -/
theorem c3_counterexample :
    (searchR c3Rows [1] "q" 10).exhausted = true ∧
    10 < rankedCount c3Rows [1] "q" 10 := by
  constructor <;> with_unfolding_all decide

/-- C3 (amended): `search` truncates the reranked candidates to
`max(k, 8)` and returns the top `k` of them as hits, the number of
internally ranked candidates is `min(max(k, 12), |rows|)`, and
`exhausted` is true iff `min(max(k, 8), ranked) ≤ k` — the length of the
*truncated* list, not of the ranked list itself.  Consequently the
claimed equivalence `exhausted ↔ ranked ≤ k` holds exactly when `k < 8`,
while for `k ≥ 8` the flag is always true. -/
theorem c3_search_truncation (rows : List DbRow) (queryEmbedding : List ℚ)
    (question : String) (topK : Nat)
    (hq : (pyStrip question.data).isEmpty = false) :
    (searchR rows queryEmbedding question topK).hits =
      ((finalHits rows queryEmbedding question topK).take topK).map
        (fun t => mkResearchHit t.1 t.2.2) ∧
    rankedCount rows queryEmbedding question topK =
      min (max topK 12) rows.length ∧
    (finalHits rows queryEmbedding question topK).length =
      min (max topK 8) (rankedCount rows queryEmbedding question topK) ∧
    ((searchR rows queryEmbedding question topK).exhausted = true ↔
      min (max topK 8) (rankedCount rows queryEmbedding question topK) ≤ topK) ∧
    (topK < 8 → ((searchR rows queryEmbedding question topK).exhausted = true ↔
      rankedCount rows queryEmbedding question topK ≤ topK)) ∧
    (8 ≤ topK → (searchR rows queryEmbedding question topK).exhausted = true) := by
  have hlen : rankedCount rows queryEmbedding question topK =
      min (max topK 12) rows.length := by
    unfold rankedCount rerankedList
    rw [(List.perm_insertionSort rerankGE _).length_eq]
    unfold rerankTuples vectorTopK
    rw [List.length_map, List.length_take]
    unfold scoredSorted
    rw [(List.perm_insertionSort scoreGE _).length_eq, List.length_map]
  have hfh : (finalHits rows queryEmbedding question topK).length =
      min (max topK 8) (rankedCount rows queryEmbedding question topK) := by
    unfold finalHits
    rw [List.length_take]
    rfl
  have hex : (searchR rows queryEmbedding question topK).exhausted = true ↔
      min (max topK 8) (rankedCount rows queryEmbedding question topK) ≤ topK := by
    unfold searchR
    rw [hq]
    simp only [Bool.false_eq_true, if_false, decide_eq_true_eq]
    rw [hfh]
  refine ⟨?_, hlen, hfh, hex, ?_, ?_⟩
  · unfold searchR
    rw [hq]
    simp
  · intro hk
    rw [hex]
    have : max topK 8 = 8 := by omega
    rw [this]
    omega
  · intro hk
    rw [hex]
    have : max topK 8 = topK := by omega
    rw [this]
    omega

/-- Witness for C3 (amended) at a concrete (empty) candidate set. -/
theorem c3_search_truncation_witness :
    (searchR [] [1] "q" 1).hits =
      ((finalHits [] [1] "q" 1).take 1).map (fun t => mkResearchHit t.1 t.2.2) ∧
    rankedCount [] [1] "q" 1 = min (max 1 12) ([] : List DbRow).length ∧
    (finalHits [] [1] "q" 1).length = min (max 1 8) (rankedCount [] [1] "q" 1) ∧
    ((searchR [] [1] "q" 1).exhausted = true ↔
      min (max 1 8) (rankedCount [] [1] "q" 1) ≤ 1) ∧
    (1 < 8 → ((searchR [] [1] "q" 1).exhausted = true ↔
      rankedCount [] [1] "q" 1 ≤ 1)) ∧
    (8 ≤ 1 → (searchR [] [1] "q" 1).exhausted = true) :=
  c3_search_truncation [] [1] "q" 1 (by decide)

/-- C8: in the reranked list, a candidate with the same vector score as
another but strictly more lexical hits is ranked no lower.  The vector
score of a rerank triple is recovered exactly as
`combined - (1/20) * hits`. -/
theorem c8_rerank_monotone (rows : List DbRow) (queryEmbedding : List ℚ)
    (question : String) (topK : Nat) (i j : Nat) (x y : ℚ × Nat × DbRow)
    (hx : (rerankedList rows queryEmbedding question topK)[i]? = some x)
    (hy : (rerankedList rows queryEmbedding question topK)[j]? = some y)
    (hv : x.1 - (1 / 20) * (x.2.1 : ℚ) = y.1 - (1 / 20) * (y.2.1 : ℚ))
    (hh : y.2.1 < x.2.1) : i ≤ j := by
  by_contra hij
  push_neg at hij
  have hsorted : List.Sorted rerankGE (rerankedList rows queryEmbedding question topK) :=
    List.sorted_insertionSort _ _
  rcases List.getElem?_eq_some.mp hx with ⟨hilt, hxe⟩
  rcases List.getElem?_eq_some.mp hy with ⟨hjlt, hye⟩
  have hrel : rerankGE y x := by
    have := List.pairwise_iff_getElem.mp hsorted j i hjlt hilt hij
    rw [hxe, hye] at this
    exact this
  have hcast : ((y.2.1 : ℚ)) < ((x.2.1 : ℚ)) := by exact_mod_cast hh
  have hlt : y.1 < x.1 := by
    have h20 : (0 : ℚ) < 1 / 20 := by norm_num
    nlinarith [hv, hcast]
  rcases hrel with h | ⟨h, h2⟩
  · exact absurd h (not_lt.mpr hlt.le)
  · rw [h] at hlt
    exact absurd hlt (lt_irrefl _)

/-- The two-row candidate set of the C8 witness: equal cosine scores,
different lexical hit counts. -/
def c8Row1 : DbRow :=
  { document_id := "d", section_id := none, content := none, emb := [1],
    tsv := some "alpha", start_page := none, end_page := none,
    start_line := none, end_line := none }

def c8Row2 : DbRow :=
  { document_id := "d", section_id := none, content := none, emb := [1],
    tsv := some "alpha beta", start_page := none, end_page := none,
    start_line := none, end_line := none }

/-- Witness for C8: both rows score cosine `1`, `c8Row2` has two lexical
hits against the query `"alpha beta"`, `c8Row1` one; the two-hit
candidate is ranked first. -/
theorem c8_rerank_monotone_witness :
    (rerankedList [c8Row1, c8Row2] [1] "alpha beta" 6)[0]? =
      some (11 / 10, 2, c8Row2) ∧
    (rerankedList [c8Row1, c8Row2] [1] "alpha beta" 6)[1]? =
      some (21 / 20, 1, c8Row1) ∧
    ((11 : ℚ) / 10) - (1 / 20) * ((2 : Nat) : ℚ) =
      ((21 : ℚ) / 20) - (1 / 20) * ((1 : Nat) : ℚ) ∧
    (0 : Nat) ≤ 1 := by
  refine ⟨?_, ?_, ?_, ?_⟩
  · with_unfolding_all decide
  · with_unfolding_all decide
  · with_unfolding_all decide
  · exact c8_rerank_monotone [c8Row1, c8Row2] [1] "alpha beta" 6 0 1
      (11 / 10, 2, c8Row2) (21 / 20, 1, c8Row1)
      (by with_unfolding_all decide) (by with_unfolding_all decide)
      (by with_unfolding_all decide) (by decide)

/-- Witness for C9 at a concrete cache and batch. -/
theorem c9_cache_hits_witness :
    "a" ∉ (embedTextsGo (fun t => t) (fun _ => [5]) ["a", "b"]
        [(("embeddings", "a"), [2])]).2.2 ∧
    (∀ i : Nat, (["a", "b"] : List String)[i]? = some "a" →
      (embedTextsGo (fun t => t) (fun _ => [5]) ["a", "b"]
        [(("embeddings", "a"), [2])]).1[i]? = some [2]) ∧
    (embedTextsGo (fun t => t) (fun _ => [5]) ["a", "b"]
        (embedTextsGo (fun t => t) (fun _ => [5]) ["a", "b"]
          [(("embeddings", "a"), [2])]).2.1 =
      ((embedTextsGo (fun t => t) (fun _ => [5]) ["a", "b"]
          [(("embeddings", "a"), [2])]).1,
        (embedTextsGo (fun t => t) (fun _ => [5]) ["a", "b"]
          [(("embeddings", "a"), [2])]).2.1, [])) :=
  c9_cache_hits (fun t => t) (fun _ => [5]) ["a", "b"]
    [(("embeddings", "a"), [2])] "a" [2] (by with_unfolding_all decide)

/-! ### `SemanticSegmenter` (segmenter.py)

Tokens are the matches of the regex `\S+\s*`: a maximal run of
non-whitespace characters together with the following whitespace run.
`tokensAux` scans the text once; the state is `none` while still in the
leading whitespace and `some (s, seenWs)` while inside the token that
started at position `s` (`seenWs`: its `\s*` tail has begun, so the next
non-whitespace character closes it). -/

def tokensAux : List Char → Nat → Option (Nat × Bool) → List (Nat × Nat)
  | [], _, none => []
  | [], i, some (s, _) => [(s, i)]
  | c :: rest, i, st =>
    if c.isWhitespace then
      match st with
      | none => tokensAux rest (i + 1) none
      | some (s, _) => tokensAux rest (i + 1) (some (s, true))
    else
      match st with
      | none => tokensAux rest (i + 1) (some (i, false))
      | some (s, false) => tokensAux rest (i + 1) (some (s, false))
      | some (s, true) => (s, i) :: tokensAux rest (i + 1) (some (i, false))

/-- The `(start, end)` positions of `SemanticSegmenter._iter_tokens`. -/
def tokens (text : List Char) : List (Nat × Nat) := tokensAux text 0 none

/-- `IsTiling ts a b`: the intervals of `ts` are nonempty, adjacent and
tile `[a, b)` exactly. -/
inductive IsTiling : List (Nat × Nat) → Nat → Nat → Prop
  | nil : ∀ a, IsTiling [] a a
  | cons : ∀ a e rest b, a < e → IsTiling rest e b → IsTiling ((a, e) :: rest) a b

/-- Python `math.ceil` on an exact rational. -/
def ceilQ (q : ℚ) : ℤ := -(Rat.floor (-q))

theorem ceilQ_eq_ceil (q : ℚ) : ceilQ q = ⌈q⌉ := by
  unfold ceilQ
  have h : Rat.floor (-q) = ⌊-q⌋ := by
    rw [Rat.floor_def']
    exact Rat.floor_def.symm
  rw [h, Int.floor_neg, neg_neg]

/-- The window step `max(1, int(math.ceil(window * (1.0 - overlap_ratio))))`. -/
def stepOf (window : Nat) (overlap : ℚ) : Nat :=
  max 1 (ceilQ ((window : ℚ) * (1 - overlap))).toNat

/-- Python `range(0, stop, step)` for `step ≥ 1`, produced with a fuel
argument (`stop` iterations always suffice). -/
def pyRangeAux (stop step : Nat) : Nat → Nat → List Nat
  | 0, _ => []
  | fuel + 1, s => if s < stop then s :: pyRangeAux stop step fuel (s + step) else []

def pyRange (stop step : Nat) : List Nat := pyRangeAux stop step stop 0

/-- `Prog step stop s l`: `l` is the arithmetic progression of stride
`step` starting at `s` that runs while `< stop` — the index sequence the
segmentation loop iterates over. -/
inductive Prog (step stop : Nat) : Nat → List Nat → Prop
  | nil : ∀ s, stop ≤ s → Prog step stop s []
  | cons : ∀ s rest, s < stop → Prog step stop (s + step) rest → Prog step stop s (s :: rest)

theorem pyRangeAux_prog (stop step : Nat) (fuel s : Nat)
    (h : stop ≤ s + fuel * step) (hstep : 0 < step) :
    Prog step stop s (pyRangeAux stop step fuel s) := by
  induction fuel generalizing s with
  | zero =>
    unfold pyRangeAux
    exact Prog.nil s (by omega)
  | succ fuel ih =>
    unfold pyRangeAux
    by_cases hs : s < stop
    · rw [if_pos hs]
      refine Prog.cons s _ hs (ih (s + step) ?_)
      have : s + (fuel + 1) * step = s + step + fuel * step := by ring
      omega
    · rw [if_neg hs]
      exact Prog.nil s (by omega)

theorem pyRange_prog (stop step : Nat) (hstep : 0 < step) :
    Prog step stop 0 (pyRange stop step) := by
  unfold pyRange
  refine pyRangeAux_prog stop step stop 0 ?_ hstep
  have : stop * 1 ≤ stop * step := Nat.mul_le_mul_left stop hstep
  omega

/-- A produced segment: character range `[start, stop)` and the token
count of the window (`Segment` in segmenter.py; `end` is renamed `stop`). -/
structure Segment where
  start : Nat
  stop : Nat
  tokenCount : Nat
deriving DecidableEq, Repr

/-- The `for start_idx in range(0, len(token_positions), step)` loop of
`SemanticSegmenter.segment`, iterating over the precomputed index list:
an empty window is skipped (`continue`), and the loop breaks right after
emitting the window that reaches the last token. -/
def segLoopList (tp : List (Nat × Nat)) (window : Nat) : List Nat → List Segment
  | [] => []
  | a :: rest =>
    let wp := (tp.drop a).take window
    if h : wp = [] then segLoopList tp window rest
    else
      let seg : Segment := ⟨(wp.head h).1, (wp.getLast h).2, wp.length⟩
      if tp.length ≤ a + window then [seg]
      else seg :: segLoopList tp window rest

/-- Model of `SemanticSegmenter.segment` for an already-validated
configuration (`targetTokens > 0`, `0 ≤ overlap < 1` are enforced by the
constructor and carried here as hypotheses of the theorems). -/
def segment (targetTokens : Nat) (overlap : ℚ) (text : List Char) : List Segment :=
  let tp := tokens text
  if tp.isEmpty then []
  else
    let window := targetTokens
    let step := stepOf window overlap
    let segs := segLoopList tp window (pyRange tp.length step)
    let lastEnd := (tp.getLastD (0, 0)).2
    if segs.isEmpty || decide ((segs.getLastD ⟨0, 0, 0⟩).stop < lastEnd) then
      segs ++ [⟨if segs.isEmpty then 0 else (segs.getLastD ⟨0, 0, 0⟩).start,
        lastEnd, tp.length⟩]
    else segs

/-- A point of the text covered by one of the produced segments. -/
def coversPt (segs : List Segment) (p : Nat) : Prop :=
  ∃ s ∈ segs, s.start ≤ p ∧ p < s.stop

instance coversPtDec (segs : List Segment) (p : Nat) : Decidable (coversPt segs p) := by
  unfold coversPt
  exact inferInstance

/-! Tiling lemmas about the token scanner. -/

theorem tokensAux_some_tiling (l : List Char) :
    ∀ (i s : Nat) (b : Bool), s < i →
      IsTiling (tokensAux l i (some (s, b))) s (i + l.length) := by
  induction l with
  | nil =>
    intro i s b hsi
    simp only [tokensAux, List.length_nil, Nat.add_zero]
    exact IsTiling.cons s i [] i hsi (IsTiling.nil i)
  | cons c rest ih =>
    intro i s b hsi
    have hlen : i + (c :: rest).length = (i + 1) + rest.length := by
      simp [List.length_cons]; omega
    rw [hlen]
    by_cases hc : c.isWhitespace
    · simp only [tokensAux, hc, if_true]
      exact ih (i + 1) s true (by omega)
    · simp only [tokensAux, hc, Bool.false_eq_true, if_false]
      cases b with
      | false => exact ih (i + 1) s false (by omega)
      | true =>
        exact IsTiling.cons s i _ _ hsi (ih (i + 1) i false (by omega))

theorem tokensAux_none_tiling (l : List Char) :
    ∀ i : Nat, tokensAux l i none = [] ∨
      ∃ a, i ≤ a ∧ IsTiling (tokensAux l i none) a (i + l.length) := by
  induction l with
  | nil => intro i; exact Or.inl rfl
  | cons c rest ih =>
    intro i
    have hlen : i + (c :: rest).length = (i + 1) + rest.length := by
      simp [List.length_cons]; omega
    by_cases hc : c.isWhitespace
    · simp only [tokensAux, hc, if_true]
      rcases ih (i + 1) with h | ⟨a, ha, ht⟩
      · exact Or.inl h
      · exact Or.inr ⟨a, by omega, by rw [hlen]; exact ht⟩
    · simp only [tokensAux, hc, Bool.false_eq_true, if_false]
      refine Or.inr ⟨i, le_refl i, ?_⟩
      rw [hlen]
      exact tokensAux_some_tiling rest (i + 1) i false (by omega)

/-- A text starting with a non-whitespace character tokenizes into a
tiling of `[0, length)`. -/
theorem tokens_cons_tiling (c : Char) (rest : List Char)
    (hc : c.isWhitespace = false) :
    IsTiling (tokens (c :: rest)) 0 (c :: rest).length := by
  unfold tokens
  simp only [tokensAux, hc, Bool.false_eq_true, if_false]
  have h := tokensAux_some_tiling rest 1 0 false (by omega)
  simpa [List.length_cons, Nat.add_comm] using h

/-- Any text tokenizes into either no tokens or a tiling of
`[a, length)` for the first token start `a`. -/
theorem tokens_tiling (text : List Char) :
    tokens text = [] ∨
      ∃ a, IsTiling (tokens text) a text.length := by
  rcases tokensAux_none_tiling text 0 with h | ⟨a, _, ht⟩
  · exact Or.inl h
  · exact Or.inr ⟨a, by simpa using ht⟩

theorem IsTiling.le {ts : List (Nat × Nat)} {a b : Nat} (h : IsTiling ts a b) :
    a ≤ b := by
  induction h with
  | nil => exact le_refl _
  | cons a e rest b hae _ ih => omega

theorem IsTiling.ne_nil {ts : List (Nat × Nat)} {a b : Nat}
    (h : IsTiling ts a b) (hab : a < b) : ts ≠ [] := by
  cases h with
  | nil => omega
  | cons a e rest b hae hrest => exact List.cons_ne_nil _ _

theorem IsTiling.start_zero {ts : List (Nat × Nat)} {a b : Nat}
    (h : IsTiling ts a b) (hne : ts ≠ []) : (ts.getD 0 (0, 0)).1 = a := by
  cases h with
  | nil => exact absurd rfl hne
  | cons a e rest b hae hrest => rfl

theorem IsTiling.last_end {ts : List (Nat × Nat)} {a b : Nat}
    (h : IsTiling ts a b) (hne : ts ≠ []) :
    (ts.getD (ts.length - 1) (0, 0)).2 = b := by
  induction h with
  | nil => exact absurd rfl hne
  | cons a e rest b hae hrest ih =>
    cases hr : rest with
    | nil =>
      subst hr
      cases hrest with
      | nil => rfl
    | cons x xs =>
      have hne2 : rest ≠ [] := by rw [hr]; exact List.cons_ne_nil _ _
      have := ih hne2
      rw [hr] at this
      simp only [List.length_cons, hr]
      simpa using this

theorem IsTiling.bounds {ts : List (Nat × Nat)} {a b : Nat}
    (h : IsTiling ts a b) :
    ∀ i, i < ts.length →
      a ≤ (ts.getD i (0, 0)).1 ∧ (ts.getD i (0, 0)).1 < (ts.getD i (0, 0)).2 ∧
        (ts.getD i (0, 0)).2 ≤ b := by
  induction h with
  | nil => intro i hi; simp at hi
  | cons a e rest b hae hrest ih =>
    intro i hi
    cases i with
    | zero =>
      refine ⟨le_refl _, hae, ?_⟩
      exact hrest.le
    | succ i =>
      simp only [List.length_cons, Nat.succ_lt_succ_iff] at hi
      have := ih i hi
      simp only [List.getD_cons_succ]
      exact ⟨by omega, this.2.1, this.2.2⟩

theorem IsTiling.adj {ts : List (Nat × Nat)} {a b : Nat}
    (h : IsTiling ts a b) :
    ∀ i, i + 1 < ts.length →
      (ts.getD i (0, 0)).2 = (ts.getD (i + 1) (0, 0)).1 := by
  induction h with
  | nil => intro i hi; simp at hi
  | cons a e rest b hae hrest ih =>
    intro i hi
    cases i with
    | zero =>
      simp only [List.getD_cons_zero, List.getD_cons_succ]
      have hne : rest ≠ [] := by
        intro hr
        rw [hr] at hi
        simp at hi
      exact (hrest.start_zero hne).symm
    | succ i =>
      simp only [List.length_cons, Nat.succ_lt_succ_iff] at hi
      simp only [List.getD_cons_succ]
      exact ih i hi

theorem IsTiling.start_mono {ts : List (Nat × Nat)} {a b : Nat}
    (h : IsTiling ts a b) :
    ∀ i j, i ≤ j → j < ts.length →
      (ts.getD i (0, 0)).1 ≤ (ts.getD j (0, 0)).1 := by
  intro i j hij hj
  induction j with
  | zero =>
    have : i = 0 := by omega
    rw [this]
  | succ j ihj =>
    rcases Nat.lt_or_ge i (j + 1) with hlt | hge
    · have hstep : (ts.getD j (0, 0)).1 ≤ (ts.getD (j + 1) (0, 0)).1 := by
        have hadj := h.adj j hj
        have hb := h.bounds j (by omega)
        omega
      exact le_trans (ihj (by omega) (by omega)) hstep
    · have : i = j + 1 := by omega
      rw [this]

theorem IsTiling.end_mono {ts : List (Nat × Nat)} {a b : Nat}
    (h : IsTiling ts a b) :
    ∀ i j, i ≤ j → j < ts.length →
      (ts.getD i (0, 0)).2 ≤ (ts.getD j (0, 0)).2 := by
  intro i j hij hj
  induction j with
  | zero =>
    have : i = 0 := by omega
    rw [this]
  | succ j ihj =>
    rcases Nat.lt_or_ge i (j + 1) with hlt | hge
    · have hstep : (ts.getD j (0, 0)).2 ≤ (ts.getD (j + 1) (0, 0)).2 := by
        have hadj := h.adj j hj
        have hb := h.bounds (j + 1) hj
        omega
      exact le_trans (ihj (by omega) (by omega)) hstep
    · have : i = j + 1 := by omega
      rw [this]

theorem IsTiling.drop {ts : List (Nat × Nat)} {a b : Nat}
    (h : IsTiling ts a b) :
    ∀ n, n < ts.length →
      IsTiling (ts.drop n) ((ts.getD n (0, 0)).1) b := by
  induction h with
  | nil => intro n hn; simp at hn
  | cons a e rest b hae hrest ih =>
    intro n hn
    cases n with
    | zero =>
      simpa using IsTiling.cons a e rest b hae hrest
    | succ n =>
      simp only [List.length_cons, Nat.succ_lt_succ_iff] at hn
      simpa using ih n hn

theorem IsTiling.take {ts : List (Nat × Nat)} {a b : Nat}
    (h : IsTiling ts a b) :
    ∀ n, 0 < n → n ≤ ts.length →
      IsTiling (ts.take n) a ((ts.getD (n - 1) (0, 0)).2) := by
  induction h with
  | nil => intro n hn hlen; simp at hlen; omega
  | cons a e rest b hae hrest ih =>
    intro n hn hlen
    cases n with
    | zero => omega
    | succ n =>
      cases hn2 : n with
      | zero =>
        simp only [List.take_succ_cons, List.take_zero]
        simpa using IsTiling.cons a e [] e hae (IsTiling.nil e)
      | succ k =>
        subst hn2
        simp only [List.take_succ_cons]
        have hlen2 : k + 1 ≤ rest.length := by
          simp only [List.length_cons] at hlen
          omega
        have hrec := ih (k + 1) (by omega) hlen2
        refine IsTiling.cons a e _ _ hae ?_
        have hidx : k + 1 + 1 - 1 = k + 1 := by omega
        rw [hidx]
        simp only [List.getD_cons_succ]
        simpa using hrec

/-- A tiling covers each of its points by one of its intervals. -/
theorem IsTiling.covers {ts : List (Nat × Nat)} {a b : Nat}
    (h : IsTiling ts a b) :
    ∀ p, a ≤ p → p < b →
      ∃ i, i < ts.length ∧ (ts.getD i (0, 0)).1 ≤ p ∧ p < (ts.getD i (0, 0)).2 := by
  induction h with
  | nil => intro p hap hpb; omega
  | cons a e rest b hae hrest ih =>
    intro p hap hpb
    rcases Nat.lt_or_ge p e with hpe | hpe
    · exact ⟨0, by simp, hap, hpe⟩
    · rcases ih p hpe hpb with ⟨i, hi, h1, h2⟩
      exact ⟨i + 1, by simpa using hi, by simpa using h1, by simpa using h2⟩

/-! Bridges between the partial (`head`/`getLast`) and total (`getD`)
access functions, and window facts for the segmentation loop. -/

theorem head_eq_getD (l : List (Nat × Nat)) (h : l ≠ []) :
    l.head h = l.getD 0 (0, 0) := by
  cases l with
  | nil => exact absurd rfl h
  | cons x xs => rfl

theorem getLast_eq_getD (l : List (Nat × Nat)) (h : l ≠ []) :
    l.getLast h = l.getD (l.length - 1) (0, 0) := by
  induction l with
  | nil => exact absurd rfl h
  | cons x xs ih =>
    cases xs with
    | nil => rfl
    | cons y ys =>
      rw [List.getLast_cons (List.cons_ne_nil y ys), ih (List.cons_ne_nil y ys)]
      simp [List.length_cons, List.getD_cons_succ]

theorem getLastD_eq_getD {α : Type} (l : List α) (d : α) (h : l ≠ []) :
    l.getLastD d = l.getD (l.length - 1) d := by
  induction l generalizing d with
  | nil => exact absurd rfl h
  | cons x xs ih =>
    cases xs with
    | nil => rfl
    | cons y ys =>
      rw [List.getLastD_cons, ih x (List.cons_ne_nil y ys)]
      simp [List.length_cons, List.getD_cons_succ]

theorem getD_take_drop {α : Type} (l : List α) (d : α) (n k idx : Nat)
    (h : idx < k) :
    ((l.drop n).take k).getD idx d = l.getD (n + idx) d := by
  rw [List.getD_eq_getElem?_getD, List.getD_eq_getElem?_getD,
    List.getElem?_take_of_lt h, List.getElem?_drop]

theorem window_tiling (tp : List (Nat × Nat)) (A B W a : Nat)
    (htile : IsTiling tp A B) (ha : a < tp.length) (hW : 0 < W) :
    (tp.drop a).take W ≠ [] ∧
    IsTiling ((tp.drop a).take W) ((tp.getD a (0, 0)).1)
      ((tp.getD (min (a + W) tp.length - 1) (0, 0)).2) := by
  have hdrop := htile.drop a ha
  have hdl : (tp.drop a).length = tp.length - a := List.length_drop a tp
  have hdne : tp.drop a ≠ [] := by
    intro hcon
    rw [hcon] at hdl
    simp at hdl
    omega
  by_cases hbr : tp.length ≤ a + W
  · have htk : (tp.drop a).take W = tp.drop a :=
      List.take_of_length_le (by omega)
    have hmin : min (a + W) tp.length = tp.length := by omega
    rw [htk, hmin]
    have hne : tp ≠ [] := by
      intro hcon
      rw [hcon] at ha
      simp at ha
    rw [htile.last_end hne]
    exact ⟨hdne, hdrop⟩
  · push_neg at hbr
    have hWle : W ≤ (tp.drop a).length := by omega
    have htk := hdrop.take W hW hWle
    have hmin : min (a + W) tp.length = a + W := by omega
    rw [hmin]
    have hidx : (tp.drop a).getD (W - 1) (0, 0) = tp.getD (a + W - 1) (0, 0) := by
      rw [List.getD_eq_getElem?_getD, List.getD_eq_getElem?_getD,
        List.getElem?_drop]
      congr 2
      omega
    rw [hidx] at htk
    refine ⟨?_, htk⟩
    intro hcon
    have hlen0 := congrArg List.length hcon
    rw [List.length_take] at hlen0
    simp only [List.length_nil] at hlen0
    omega

/-- A token lying inside a segment's character range. -/
def inSeg (s : Segment) (t : Nat × Nat) : Bool :=
  decide (s.start ≤ t.1) && decide (t.2 ≤ s.stop)

/-- The number of tokens of the text shared by two segments. -/
def countShared (tp : List (Nat × Nat)) (s1 s2 : Segment) : Nat :=
  (tp.filter (fun t => inSeg s1 t && inSeg s2 t)).length

theorem stepOf_pos (W : Nat) (r : ℚ) : 0 < stepOf W r :=
  Nat.lt_of_lt_of_le Nat.zero_lt_one (Nat.le_max_left _ _)

theorem stepOf_le (W : Nat) (hW : 0 < W) (r : ℚ) (hr0 : 0 ≤ r) :
    stepOf W r ≤ W := by
  unfold stepOf
  have h1 : ceilQ ((W : ℚ) * (1 - r)) ≤ (W : ℤ) := by
    rw [ceilQ_eq_ceil]
    rw [show ((W : ℤ) : ℤ) = ((W : ℤ) : ℤ) from rfl]
    have : ((W : ℚ) * (1 - r)) ≤ ((W : ℤ) : ℚ) := by
      push_cast
      nlinarith
    exact Int.ceil_le.mpr this
  have h2 : (ceilQ ((W : ℚ) * (1 - r))).toNat ≤ W := by omega
  omega

theorem sub_stepOf (W : Nat) (hW : 0 < W) (r : ℚ) (hr0 : 0 ≤ r) (hr1 : r < 1) :
    ((W - stepOf W r : ℕ) : ℤ) = ⌊(W : ℚ) * r⌋ := by
  have hWq : (0 : ℚ) < (W : ℚ) := by exact_mod_cast hW
  have hpos : 0 < ⌈(W : ℚ) * (1 - r)⌉ := by
    rw [Int.ceil_pos]
    nlinarith
  have hceil : ⌈(W : ℚ) * (1 - r)⌉ = (W : ℤ) - ⌊(W : ℚ) * r⌋ := by
    have hsplit : (W : ℚ) * (1 - r) = -((W : ℚ) * r) + ((W : ℤ) : ℚ) := by
      push_cast
      ring
    rw [hsplit, Int.ceil_add_int, Int.ceil_neg]
    ring
  have hfl0 : 0 ≤ ⌊(W : ℚ) * r⌋ := Int.floor_nonneg.mpr (by positivity)
  have hle := stepOf_le W hW r hr0
  have hstep : stepOf W r = (⌈(W : ℚ) * (1 - r)⌉).toNat := by
    unfold stepOf
    rw [ceilQ_eq_ceil]
    omega
  rw [hstep]
  omega

/-- One unfolding of the segmentation loop at a live index: the emitted
segment spans from the start of token `a` to the end of token
`min(a + W, m) - 1`. -/
theorem segLoopList_cons_eq (tp : List (Nat × Nat)) (A B W : Nat)
    (htile : IsTiling tp A B) (a : Nat) (rest : List Nat)
    (ha : a < tp.length) (hW : 0 < W) :
    segLoopList tp W (a :: rest) =
      if tp.length ≤ a + W then
        [⟨(tp.getD a (0, 0)).1, (tp.getD (min (a + W) tp.length - 1) (0, 0)).2,
          ((tp.drop a).take W).length⟩]
      else
        ⟨(tp.getD a (0, 0)).1, (tp.getD (min (a + W) tp.length - 1) (0, 0)).2,
          ((tp.drop a).take W).length⟩ :: segLoopList tp W rest := by
  rcases window_tiling tp A B W a htile ha hW with ⟨hne, hwt⟩
  have hhead : (((tp.drop a).take W).head hne).1 = (tp.getD a (0, 0)).1 := by
    rw [head_eq_getD _ hne]
    exact hwt.start_zero hne
  have hlast : (((tp.drop a).take W).getLast hne).2 =
      (tp.getD (min (a + W) tp.length - 1) (0, 0)).2 := by
    rw [getLast_eq_getD _ hne]
    exact hwt.last_end hne
  simp only [segLoopList]
  rw [dif_neg hne]
  by_cases hbr : tp.length ≤ a + W
  · rw [if_pos hbr, if_pos hbr, hhead, hlast]
  · rw [if_neg hbr, if_neg hbr, hhead, hlast]

/-- Every segment the loop emits ends at or before the tiling's right
endpoint. -/
theorem segLoopList_stop_le (tp : List (Nat × Nat)) (A B W step : Nat)
    (htile : IsTiling tp A B) (hW : 0 < W) :
    ∀ {a : Nat} {l : List Nat}, Prog step tp.length a l →
      ∀ sg ∈ segLoopList tp W l, sg.stop ≤ B := by
  intro a l hp
  induction hp with
  | nil s hs =>
    intro sg hsg
    simp [segLoopList] at hsg
  | cons s rest hs hrest ih =>
    intro sg hsg
    rw [segLoopList_cons_eq tp A B W htile s rest hs hW] at hsg
    have hidx : min (s + W) tp.length - 1 < tp.length := by omega
    have hstop : (tp.getD (min (s + W) tp.length - 1) (0, 0)).2 ≤ B :=
      (htile.bounds _ hidx).2.2
    by_cases hbr : tp.length ≤ s + W
    · rw [if_pos hbr] at hsg
      have := List.mem_singleton.mp hsg
      subst this
      exact hstop
    · rw [if_neg hbr] at hsg
      rcases List.mem_cons.mp hsg with heq | hmem
      · subst heq; exact hstop
      · exact ih sg hmem

/-- The loop's segments cover every character position from the start of
the current token to the end of the tiling. -/
theorem segLoopList_covers (tp : List (Nat × Nat)) (A B W step : Nat)
    (htile : IsTiling tp A B) (hW : 0 < W) (hsw : step ≤ W) :
    ∀ {a : Nat} {l : List Nat}, Prog step tp.length a l → a < tp.length →
      ∀ p, (tp.getD a (0, 0)).1 ≤ p → p < B →
        ∃ sg ∈ segLoopList tp W l, sg.start ≤ p ∧ p < sg.stop := by
  intro a l hp
  induction hp with
  | nil s hs => intro ha; omega
  | cons s rest hs hrest ih =>
    intro _ p hsp hpB
    rw [segLoopList_cons_eq tp A B W htile s rest hs hW]
    by_cases hbr : tp.length ≤ s + W
    · rw [if_pos hbr]
      refine ⟨_, List.mem_singleton_self _, hsp, ?_⟩
      have hne : tp ≠ [] := by
        intro hcon
        rw [hcon] at hs
        simp at hs
      have hmin : min (s + W) tp.length = tp.length := by omega
      simp only [hmin]
      rw [htile.last_end hne]
      exact hpB
    · rw [if_neg hbr]
      push_neg at hbr
      have hmin : min (s + W) tp.length = s + W := by omega
      simp only [hmin]
      by_cases hps : p < (tp.getD (s + W - 1) (0, 0)).2
      · exact ⟨_, List.mem_cons_self _ _, hsp, hps⟩
      · push_neg at hps
        have hsstep : s + step < tp.length := by omega
        have hnext : (tp.getD (s + step) (0, 0)).1 ≤ p := by
          rcases Nat.lt_or_ge (s + step) (s + W) with hlt | hge
          · have hmono := htile.start_mono (s + step) (s + W - 1) (by omega) (by omega)
            have hb := (htile.bounds (s + W - 1) (by omega)).2.1
            omega
          · have heq : s + step = s + W := by omega
            have hadj := htile.adj (s + W - 1) (by omega)
            have hidx : s + W - 1 + 1 = s + W := by omega
            rw [hidx] at hadj
            rw [heq]
            omega
        rcases ih hsstep p hnext hpB with ⟨sg, hmem, hc1, hc2⟩
        exact ⟨sg, List.mem_cons_of_mem _ hmem, hc1, hc2⟩

/-- Counting bound for two overlapping windows: the tokens with indices
in `[s + step, s + W)` lie in both windows' segments. -/
theorem countShared_window (tp : List (Nat × Nat)) (A B W step s c1 c2 : Nat)
    (htile : IsTiling tp A B) (hW : 0 < W) (hsw : step ≤ W)
    (hbr : s + W < tp.length) :
    W - step ≤ countShared tp
      ⟨(tp.getD s (0, 0)).1, (tp.getD (min (s + W) tp.length - 1) (0, 0)).2, c1⟩
      ⟨(tp.getD (s + step) (0, 0)).1,
        (tp.getD (min (s + step + W) tp.length - 1) (0, 0)).2, c2⟩ := by
  set seg1 : Segment :=
    ⟨(tp.getD s (0, 0)).1, (tp.getD (min (s + W) tp.length - 1) (0, 0)).2, c1⟩
    with hseg1
  set seg2 : Segment :=
    ⟨(tp.getD (s + step) (0, 0)).1,
      (tp.getD (min (s + step + W) tp.length - 1) (0, 0)).2, c2⟩ with hseg2
  have hmin1 : min (s + W) tp.length = s + W := by omega
  have hminb : s + W ≤ min (s + step + W) tp.length := by omega
  have hminc : min (s + step + W) tp.length ≤ tp.length := by omega
  set sub := (tp.drop (s + step)).take (W - step) with hsub
  have hsubl : sub.length = W - step := by
    rw [hsub, List.length_take, List.length_drop]
    omega
  have hall : ∀ t ∈ sub, (inSeg seg1 t && inSeg seg2 t) = true := by
    intro t htmem
    rcases List.mem_iff_getElem.mp htmem with ⟨idx, hidx, hte⟩
    have hidx2 : idx < W - step := by omega
    have hteq : t = tp.getD (s + step + idx) (0, 0) := by
      rw [← hte, ← List.getD_eq_getElem sub (0, 0) hidx]
      exact getD_take_drop tp (0, 0) (s + step) (W - step) idx hidx2
    have hj : s + step + idx < tp.length := by omega
    have hjle : s + step + idx ≤ s + W - 1 := by omega
    have h1 : seg1.start ≤ (tp.getD (s + step + idx) (0, 0)).1 := by
      rw [hseg1]
      exact htile.start_mono s (s + step + idx) (by omega) hj
    have h2 : (tp.getD (s + step + idx) (0, 0)).2 ≤ seg1.stop := by
      rw [hseg1]
      simp only [hmin1]
      exact htile.end_mono (s + step + idx) (s + W - 1) hjle (by omega)
    have h3 : seg2.start ≤ (tp.getD (s + step + idx) (0, 0)).1 := by
      rw [hseg2]
      exact htile.start_mono (s + step) (s + step + idx) (by omega) hj
    have h4 : (tp.getD (s + step + idx) (0, 0)).2 ≤ seg2.stop := by
      rw [hseg2]
      exact htile.end_mono (s + step + idx) (min (s + step + W) tp.length - 1)
        (by omega) (by omega)
    rw [hteq]
    simp only [inSeg, Bool.and_eq_true, decide_eq_true_eq]
    exact ⟨⟨h1, h2⟩, ⟨h3, h4⟩⟩
  have hsublist : sub.Sublist tp := by
    rw [hsub]
    exact (List.take_sublist _ _).trans (List.drop_sublist _ _)
  have hfil : sub.filter (fun t => inSeg seg1 t && inSeg seg2 t) = sub :=
    List.filter_eq_self.mpr hall
  calc W - step = sub.length := hsubl.symm
    _ = (sub.filter (fun t => inSeg seg1 t && inSeg seg2 t)).length := by rw [hfil]
    _ ≤ (tp.filter (fun t => inSeg seg1 t && inSeg seg2 t)).length :=
        (hsublist.filter _).length_le
    _ = countShared tp seg1 seg2 := rfl

/-- Consecutive segments emitted by the loop share at least `W - step`
tokens. -/
theorem segLoopList_pairs (tp : List (Nat × Nat)) (A B W step : Nat)
    (htile : IsTiling tp A B) (hW : 0 < W) (hsw : step ≤ W) :
    ∀ {a : Nat} {l : List Nat}, Prog step tp.length a l →
      ∀ (i : Nat) (s1 s2 : Segment), (segLoopList tp W l)[i]? = some s1 →
        (segLoopList tp W l)[i + 1]? = some s2 →
        W - step ≤ countShared tp s1 s2 := by
  intro a l hp
  induction hp with
  | nil s hs =>
    intro i s1 s2 h1 h2
    simp [segLoopList] at h1
  | cons s rest hs hrest ih =>
    intro i s1 s2 h1 h2
    rw [segLoopList_cons_eq tp A B W htile s rest hs hW] at h1 h2
    by_cases hbr : tp.length ≤ s + W
    · rw [if_pos hbr] at h2
      rw [List.getElem?_eq_none (by simp)] at h2
      exact Option.noConfusion h2
    · rw [if_neg hbr] at h1 h2
      push_neg at hbr
      cases i with
      | zero =>
        simp only [List.getElem?_cons_zero, Option.some.injEq] at h1
        simp only [List.getElem?_cons_succ] at h2
        have hsstep : s + step < tp.length := by omega
        cases hrest with
        | nil hcon => omega
        | cons s2x rest2 hlt hrest2 =>
          rw [segLoopList_cons_eq tp A B W htile (s + step) rest2 hlt hW] at h2
          subst h1
          by_cases hbr2 : tp.length ≤ s + step + W
          · rw [if_pos hbr2] at h2
            simp only [List.getElem?_cons_zero, Option.some.injEq] at h2
            subst h2
            exact countShared_window tp A B W step s _ _ htile hW hsw hbr
          · rw [if_neg hbr2] at h2
            simp only [List.getElem?_cons_zero, Option.some.injEq] at h2
            subst h2
            exact countShared_window tp A B W step s _ _ htile hW hsw hbr
      | succ k =>
        simp only [List.getElem?_cons_succ] at h1 h2
        exact ih k s1 s2 h1 h2

/-- C2 (counterexample): the single-space text is nonempty and the
configuration is the segmenter default (`target_tokens = 1000`,
`overlap_ratio = 0.12`), yet no segment covers position `0`: the token
iterator finds no token, so `segment` returns the empty list and the
union of the ranges is empty, not `[0, 1)`. -/
theorem c2_counterexample :
    (" ".toList).length = 1 ∧
    ¬ coversPt (segment 1000 (12 / 100) (" ".toList)) 0 := by
  constructor
  · decide
  · with_unfolding_all decide

/-- The two branches of `segment` once the token list is known to be
nonempty. -/
theorem segment_eq_branches (target : Nat) (r : ℚ) (text : List Char)
    (h : (tokens text).isEmpty = false) :
    segment target r text =
      (if (segLoopList (tokens text) target
            (pyRange (tokens text).length (stepOf target r))).isEmpty
          || decide (((segLoopList (tokens text) target
              (pyRange (tokens text).length (stepOf target r))).getLastD
                ⟨0, 0, 0⟩).stop < ((tokens text).getLastD (0, 0)).2) then
        segLoopList (tokens text) target
            (pyRange (tokens text).length (stepOf target r)) ++
          [⟨if (segLoopList (tokens text) target
                (pyRange (tokens text).length (stepOf target r))).isEmpty then 0
              else ((segLoopList (tokens text) target
                (pyRange (tokens text).length (stepOf target r))).getLastD
                  ⟨0, 0, 0⟩).start,
            ((tokens text).getLastD (0, 0)).2, (tokens text).length⟩]
      else segLoopList (tokens text) target
        (pyRange (tokens text).length (stepOf target r))) := by
  simp only [segment, h, Bool.false_eq_true, if_false]

/-- C2 (amended): for every nonempty text that starts with a
non-whitespace character and every valid configuration, the union of the
segment character ranges is exactly `[0, len(text))`: every position of
the text is covered by a segment and every covered position is a text
position. -/
theorem c2_segment_coverage (target : Nat) (r : ℚ) (c : Char) (rest : List Char)
    (ht : 0 < target) (hr0 : 0 ≤ r) (hr1 : r < 1)
    (hc : c.isWhitespace = false) :
    ∀ p : Nat, coversPt (segment target r (c :: rest)) p ↔ p < (c :: rest).length := by
  have htile := tokens_cons_tiling c rest hc
  have hlenpos : 0 < (c :: rest).length := by simp
  have htpne : tokens (c :: rest) ≠ [] := htile.ne_nil hlenpos
  have htpe : (tokens (c :: rest)).isEmpty = false := by
    cases hcase : tokens (c :: rest) with
    | nil => exact absurd hcase htpne
    | cons x xs => rfl
  have hprog := pyRange_prog (tokens (c :: rest)).length (stepOf target r)
    (stepOf_pos target r)
  have hstep_le := stepOf_le target ht r hr0
  rw [segment_eq_branches target r (c :: rest) htpe]
  set tp := tokens (c :: rest) with htp
  set segs := segLoopList tp target (pyRange tp.length (stepOf target r)) with hsegs
  have hB : (tp.getLastD (0, 0)).2 = (c :: rest).length := by
    rw [getLastD_eq_getD tp (0, 0) htpne]
    exact htile.last_end htpne
  have hstop_le : ∀ sg ∈ segs, sg.stop ≤ (c :: rest).length := fun sg hsg =>
    segLoopList_stop_le tp 0 ((c :: rest).length) target (stepOf target r)
      htile ht hprog sg hsg
  have hm : 0 < tp.length := List.length_pos.mpr htpne
  have hcovers : ∀ p, p < (c :: rest).length →
      ∃ sg ∈ segs, sg.start ≤ p ∧ p < sg.stop := by
    intro p hp
    refine segLoopList_covers tp 0 ((c :: rest).length) target (stepOf target r)
      htile ht hstep_le hprog hm p ?_ hp
    rw [htile.start_zero htpne]
    exact Nat.zero_le p
  intro p
  simp only [coversPt]
  constructor
  · rintro ⟨sg, hmem, hp1, hp2⟩
    by_cases happ : (segs.isEmpty ||
        decide ((segs.getLastD ⟨0, 0, 0⟩).stop < (tp.getLastD (0, 0)).2)) = true
    · rw [if_pos happ] at hmem
      rcases List.mem_append.mp hmem with hmem2 | hmem2
      · exact lt_of_lt_of_le hp2 (hstop_le sg hmem2)
      · have hsgeq := List.mem_singleton.mp hmem2
        subst hsgeq
        have hp3 : p < (tp.getLastD (0, 0)).2 := hp2
        rw [hB] at hp3
        exact hp3
    · rw [if_neg happ] at hmem
      exact lt_of_lt_of_le hp2 (hstop_le sg hmem)
  · intro hp
    rcases hcovers p hp with ⟨sg, hmem, hp1, hp2⟩
    by_cases happ : (segs.isEmpty ||
        decide ((segs.getLastD ⟨0, 0, 0⟩).stop < (tp.getLastD (0, 0)).2)) = true
    · rw [if_pos happ]
      exact ⟨sg, List.mem_append_left _ hmem, hp1, hp2⟩
    · rw [if_neg happ]
      exact ⟨sg, hmem, hp1, hp2⟩

/-- Witness for C2 (amended) at a concrete text and position. -/
theorem c2_segment_coverage_witness :
    coversPt (segment 1 0 ('a' :: "b".toList)) 1 ↔ 1 < ('a' :: "b".toList).length :=
  c2_segment_coverage 1 0 'a' "b".toList (by decide)
    (by with_unfolding_all decide) (by with_unfolding_all decide) (by decide) 1

/-- C6: every pair of consecutive segments, except possibly the pair
ending at the final segment, shares at least `⌊target_tokens *
overlap_ratio⌋` tokens of the text; the loop step is
`max(1, ⌈target_tokens * (1 - overlap_ratio)⌉)` by definition of
`stepOf`, and the shared-token count of a consecutive pair is exactly
bounded below by `window - step = ⌊target_tokens * overlap_ratio⌋`. -/
theorem c6_segment_overlap (target : Nat) (r : ℚ) (text : List Char) (i : Nat)
    (s1 s2 : Segment) (ht : 0 < target) (hr0 : 0 ≤ r) (hr1 : r < 1)
    (h1 : (segment target r text)[i]? = some s1)
    (h2 : (segment target r text)[i + 1]? = some s2)
    (hfin : i + 2 < (segment target r text).length) :
    ⌊(target : ℚ) * r⌋ ≤ (countShared (tokens text) s1 s2 : ℤ) := by
  by_cases htpe : (tokens text).isEmpty = true
  · have hnil : segment target r text = [] := by
      simp only [segment, htpe, if_true]
    rw [hnil] at h1
    simp at h1
  · have htpe2 : (tokens text).isEmpty = false := by
      cases hcase : (tokens text).isEmpty with
      | false => rfl
      | true => exact absurd hcase htpe
    have htpne : tokens text ≠ [] := by
      intro hcon
      rw [hcon] at htpe2
      simp at htpe2
    rcases tokens_tiling text with hemp | ⟨A, htile⟩
    · exact absurd hemp htpne
    · have hprog := pyRange_prog (tokens text).length (stepOf target r)
        (stepOf_pos target r)
      have hsw := stepOf_le target ht r hr0
      rw [segment_eq_branches target r text htpe2] at h1 h2 hfin
      set segs := segLoopList (tokens text) target
        (pyRange (tokens text).length (stepOf target r)) with hsegs
      have hconc : target - stepOf target r ≤ countShared (tokens text) s1 s2 →
          ⌊(target : ℚ) * r⌋ ≤ (countShared (tokens text) s1 s2 : ℤ) := by
        intro hcount
        have hsub := sub_stepOf target ht r hr0 hr1
        have hc2 : ((target - stepOf target r : ℕ) : ℤ) ≤
            (countShared (tokens text) s1 s2 : ℤ) := by exact_mod_cast hcount
        omega
      by_cases happ : (segs.isEmpty || decide ((segs.getLastD ⟨0, 0, 0⟩).stop <
          ((tokens text).getLastD (0, 0)).2)) = true
      · rw [if_pos happ] at h1 h2 hfin
        rw [List.length_append, List.length_cons, List.length_nil] at hfin
        have hi1 : i + 1 < segs.length := by omega
        rw [List.getElem?_append_left (by omega)] at h1
        rw [List.getElem?_append_left hi1] at h2
        exact hconc (segLoopList_pairs (tokens text) A text.length target
          (stepOf target r) htile ht hsw hprog i s1 s2 h1 h2)
      · rw [if_neg happ] at h1 h2
        exact hconc (segLoopList_pairs (tokens text) A text.length target
          (stepOf target r) htile ht hsw hprog i s1 s2 h1 h2)

/-- Witness for C6 at a concrete text: windows of two tokens with half
overlap share one token. -/
theorem c6_segment_overlap_witness :
    (segment 2 (1 / 2) ("a b c d e".toList))[0]? = some ⟨0, 4, 2⟩ ∧
    (segment 2 (1 / 2) ("a b c d e".toList))[1]? = some ⟨2, 6, 2⟩ ∧
    0 + 2 < (segment 2 (1 / 2) ("a b c d e".toList)).length ∧
    ⌊(2 : ℚ) * (1 / 2)⌋ ≤
      (countShared (tokens ("a b c d e".toList)) ⟨0, 4, 2⟩ ⟨2, 6, 2⟩ : ℤ) := by
  refine ⟨?_, ?_, ?_, ?_⟩
  · with_unfolding_all decide
  · with_unfolding_all decide
  · with_unfolding_all decide
  · exact c6_segment_overlap 2 (1 / 2) ("a b c d e".toList) 0 ⟨0, 4, 2⟩ ⟨2, 6, 2⟩
      (by decide) (by with_unfolding_all decide) (by with_unfolding_all decide)
      (by with_unfolding_all decide) (by with_unfolding_all decide)
      (by with_unfolding_all decide)

end Pdfqanda
